import Mathlib

/-!
Verification of the STUDY-BOT Telegram bot (`bot.js` and its near-duplicate
variants).  The JavaScript handlers are shallowly embedded: strings are
`List Char`, the remote gateways (Supabase, chat-completion API) are
parameters of the handler functions, and each handler body is translated
branch by branch.  All definitions are executable so that concrete command
texts can be evaluated with `decide`.
-/

namespace StudyBot

/-- The whitespace class used by the JavaScript `/\s+/` regex, `trim()` and
`parseInt`, restricted to the ASCII whitespace characters
(space, tab, newline, carriage return, vertical tab, form feed). -/
def isWsChar (c : Char) : Bool :=
  c = ' ' || c = '\t' || c = '\n' || c = '\r' || c = Char.ofNat 11 || c = Char.ofNat 12

/-- ASCII decimal digit, as matched by `parseInt(_, 10)`. -/
def isDigitChar (c : Char) : Bool :=
  '0' ≤ c && c ≤ '9'

/-- The character class `[A-Za-z]` of the name-validation regex. -/
def isAsciiLetter (c : Char) : Bool :=
  ('A' ≤ c && c ≤ 'Z') || ('a' ≤ c && c ≤ 'z')

/-- Characters of a Lean string literal, used to write concrete inputs. -/
def strChars (s : String) : List Char :=
  s.data

/-- JavaScript `text.split(' ')` (string separator: split at every single
space character, keeping empty fragments). -/
def splitOnSpace : List Char → List (List Char)
  | [] => [[]]
  | c :: cs =>
    if c = ' ' then [] :: splitOnSpace cs
    else
      match splitOnSpace cs with
      | [] => [[c]]
      | t :: ts => (c :: t) :: ts

/-- One pass that rewrites every maximal run of whitespace characters to a
single `' '`; `prevWs` records whether the previous character was part of a
whitespace run.  `split(/\s+/)` is embedded as splitting on `' '` after this
collapsing pass. -/
def collapseGo : Bool → List Char → List Char
  | _, [] => []
  | true, c :: cs => if isWsChar c then collapseGo true cs else c :: collapseGo false cs
  | false, c :: cs =>
    if isWsChar c then ' ' :: collapseGo true cs else c :: collapseGo false cs

/-- JavaScript `s.split(/\s+/)`: every maximal whitespace run is a separator;
a leading (resp. trailing) run contributes a leading (resp. trailing) empty
fragment, exactly as in JS. -/
def jsSplitWs (s : List Char) : List (List Char) :=
  splitOnSpace (collapseGo false s)

/-- No two adjacent spaces (used to characterise `collapseGo` output). -/
def noTwoSpaces (v : List Char) : Prop :=
  List.Chain' (fun a b => ¬(a = ' ' ∧ b = ' ')) v

/-- JavaScript `tokens.join(" ")`. -/
def joinSp : List (List Char) → List Char
  | [] => []
  | [t] => t
  | t :: ts => t ++ ' ' :: joinSp ts

/-- JavaScript `s.trim()` (strip whitespace from both ends). -/
def trimWs (s : List Char) : List Char :=
  ((s.dropWhile isWsChar).reverse.dropWhile isWsChar).reverse

/-- Numeric value of a non-empty digit list (most significant first). -/
def digitsVal (ds : List Char) : Nat :=
  ds.foldl (fun a c => a * 10 + (c.toNat - 48)) 0

/-- The longest leading digit run of `s`, as `some value`, or `none` when `s`
does not start with a digit. -/
def leadDigits (s : List Char) : Option Nat :=
  let ds := s.takeWhile isDigitChar
  if ds.isEmpty then none else some (digitsVal ds)

/-- JavaScript `parseInt(s, 10)`: skip leading whitespace, read an optional
sign and then the longest run of decimal digits; `none` models `NaN`. -/
def jsParseInt (s : List Char) : Option Int :=
  match s.dropWhile isWsChar with
  | [] => none
  | c :: rest =>
    if c = '-' then (leadDigits rest).map (fun n => -(n : Int))
    else if c = '+' then (leadDigits rest).map (fun n => (n : Int))
    else (leadDigits (c :: rest)).map (fun n => (n : Int))

/-- The value of the longest prefix of `tok` that is a decimal integer
literal (optional sign followed by at least one digit), written from the
spec's phrase "longest leading decimal-integer prefix"; `none` when no
such non-empty prefix exists. -/
def longestIntPrefixVal (tok : List Char) : Option Int :=
  match tok with
  | [] => none
  | c :: rest =>
    if c = '-' then (leadDigits rest).map (fun n => -(n : Int))
    else if c = '+' then (leadDigits rest).map (fun n => (n : Int))
    else (leadDigits (c :: rest)).map (fun n => (n : Int))

/-! ### Field validators (from the `/add` and `/explain` handlers) -/

/-- `/^[A-Za-z]+$/.test(first_name)` from the `add` handler. -/
def nameOk (s : List Char) : Bool :=
  !s.isEmpty && s.all isAsciiLetter

/-- Modelled from the spec: the language of the regex `^[A-Za-z]+$` — a
non-empty string of ASCII letters. -/
def matchesNamePattern (s : List Char) : Prop :=
  s ≠ [] ∧ ∀ c ∈ s, ('A' ≤ c ∧ c ≤ 'Z') ∨ ('a' ≤ c ∧ c ≤ 'z')

/-- Truthiness of `className.trim()`: the class field passes when the trimmed
value is non-empty. -/
def classOk (s : List Char) : Bool :=
  !(trimWs s).isEmpty

/-- Acceptance of a parsed age: the `add` handler rejects when
`isNaN(age) || age < 5 || age > 120`; this is the accepting complement for a
non-NaN value. -/
def ageOk (a : Int) : Bool :=
  !(a < 5 || a > 120)

/-- Acceptance of a parsed word limit: the `explain` handler rejects when
`isNaN(wordLimit) || wordLimit < 10 || wordLimit > 1000`. -/
def wordLimitOk (w : Int) : Bool :=
  !(w < 10 || w > 1000)

/-- Acceptance of the raw age token: `parseInt` then the range test (a `NaN`
parse is rejected by the same condition). -/
def ageTokOk (tok : List Char) : Bool :=
  match jsParseInt tok with
  | none => false
  | some a => ageOk a

/-- Acceptance of the raw word-limit token. -/
def wordLimitTokOk (tok : List Char) : Bool :=
  match jsParseInt tok with
  | none => false
  | some w => wordLimitOk w

/-! ### The `/add` handler -/

/-- Outcome of one `/add` invocation: exactly one reply is sent; `insert` is
the single store-insert attempt carried out after all checks pass. -/
inductive AddOutcome where
  | arityReply
  | patternReply
  | emptyReply
  | rangeReply
  | insert (firstName className : List Char) (age : Int)
  deriving DecidableEq, Repr

/-- The validation error classes of the spec's taxonomy for `/add`. -/
inductive AddErr where
  | arity
  | pattern
  | empty
  | range
  deriving DecidableEq, Repr

/-- The error identified by an `/add` outcome, if any. -/
def addErrOf : AddOutcome → Option AddErr
  | .arityReply => some .arity
  | .patternReply => some .pattern
  | .emptyReply => some .empty
  | .rangeReply => some .range
  | .insert _ _ _ => none

/-- Body of the `add` handler after `ctx.message.text.split(' ').slice(1)`:
arity check, then name pattern, then class emptiness, then age parse/range,
each short-circuiting with its reply; on success the row insert is attempted. -/
def addRunArgs (args : List (List Char)) : AddOutcome :=
  match args with
  | [firstName, className, ageStr] =>
    if !nameOk firstName then .patternReply
    else if !classOk className then .emptyReply
    else
      match jsParseInt ageStr with
      | none => .rangeReply
      | some age => if !ageOk age then .rangeReply else .insert firstName className age
  | _ => .arityReply

/-- The `add` handler on the raw message text. -/
def addRun (text : List Char) : AddOutcome :=
  addRunArgs ((splitOnSpace text).drop 1)

/-- Modelled from the spec (§4.2): the first failing field in left-to-right
declaration order — arity, then name pattern, then class emptiness, then age
range — used to compare against the implementation's reply. -/
def specAddFirstError (args : List (List Char)) : Option AddErr :=
  if args.length ≠ 3 then some .arity
  else if !nameOk (args.getD 0 []) then some .pattern
  else if !classOk (args.getD 1 []) then some .empty
  else if !ageTokOk (args.getD 2 []) then some .range
  else none

/-! ### The `/explain` handler -/

/-- Fallback text when the gateway response carries no content
(`|| "No explanation found."`). -/
def noExplanationMsg : List Char :=
  strChars "No explanation found."

/-- `apiResponse.data?.choices?.[0]?.message?.content || "No explanation
found."`: the JS `||` substitutes the fallback for every falsy left operand,
so both an absent content field (`none`) and the empty string take the
fallback. -/
def jsContentOrDefault : Option (List Char) → List Char
  | none => noExplanationMsg
  | some s => if s.isEmpty then noExplanationMsg else s

/-- `explanation.split(/\s+/).slice(0, wordLimit).join(" ")` — the handler's
word-limit truncation. -/
def truncateWords (w : Nat) (s : List Char) : List Char :=
  joinSp ((jsSplitWs s).take w)

/-- Number of whitespace-delimited words of a string: a run-length scan that
counts maximal non-whitespace runs (`inWord` says whether the previous
character was part of a word). -/
def cwGo (inWord : Bool) : List Char → Nat
  | [] => 0
  | c :: cs =>
    if isWsChar c then cwGo false cs
    else (if inWord then 0 else 1) + cwGo true cs

/-- Whitespace-delimited word count. -/
def countWords (s : List Char) : Nat :=
  cwGo false s

/-- Outcome of one `/explain` invocation.  `success` records the topic, the
accepted word limit, the truncated explanation that is both persisted and
sent, and whether a persistence failure was logged. -/
inductive ExplainOut where
  | usageReply
  | invalidReply
  | success (topic : List Char) (wordLimit : Int) (response : List Char)
      (persistFailureLogged : Bool)
  deriving DecidableEq, Repr

/-- The reply the user sees, with the internal logging flag erased. -/
inductive ExplainReply where
  | usage
  | invalid
  | explanation (topic : List Char) (wordLimit : Int) (response : List Char)
  deriving DecidableEq, Repr

/-- User-visible reply of an `/explain` outcome. -/
def userReplyOf : ExplainOut → ExplainReply
  | .usageReply => .usage
  | .invalidReply => .invalid
  | .success t w r _ => .explanation t w r

/-- Body of the `explain` handler.  `apiContent` is the optional
`choices[0].message.content` of the gateway response and `persistFails`
whether the best-effort `explanations` insert fails; the second component of
the result records whether the generation gateway was actually called
(`axios.post` reached).  A failing insert is only logged (the `README.md`
variant's inner `try`/`catch`), never surfaced. -/
def explainRun (apiContent : Option (List Char)) (persistFails : Bool)
    (text : List Char) : ExplainOut × Bool :=
  -- args = text.split(" ").slice(1); wordLimitStr = args[args.length - 1];
  -- topic = args.slice(0, args.length - 1).join(" ").trim()
  if ((splitOnSpace text).drop 1).length < 2 then (.usageReply, false)
  else
    match jsParseInt (((splitOnSpace text).drop 1).getLastD []) with
    | none => (.invalidReply, false)
    | some w =>
      if (trimWs (joinSp ((splitOnSpace text).drop 1).dropLast)).isEmpty
          || !wordLimitOk w then
        (.invalidReply, false)
      else
        (.success (trimWs (joinSp ((splitOnSpace text).drop 1).dropLast)) w
          (truncateWords w.toNat (jsContentOrDefault apiContent))
          persistFails, true)

/-! ### Chunked fan-out (the `tag` and `alert` batch loops) -/

/-- Structural engine for the chunk loop: each step emits `slice(i, i+50)`
of the remainder and advances by 50; the fuel argument only bounds the
number of steps and is never exhausted when it starts at the list length. -/
def chunkGo {α : Type} : Nat → List α → List (List α)
  | _, [] => []
  | 0, _ :: _ => []
  | fuel + 1, x :: xs => ((x :: xs).take 50) :: chunkGo fuel ((x :: xs).drop 50)

/-- The batches emitted by the loop
`for (i = 0; i < mentions.length; i += 50) slice(i, i + 50)`. -/
def mentionChunks {α : Type} (l : List α) : List (List α) :=
  chunkGo l.length l

/-- Literal index-based translation of the same loop, kept to relate the
structural `mentionChunks` to the source text. -/
def chunkLoop {α : Type} (l : List α) (i : Nat) : List (List α) :=
  if i < l.length then ((l.drop i).take 50) :: chunkLoop l (i + 50) else []
  termination_by l.length - i
  decreasing_by simp_wf; omega

/-! ### The `/alert` handler -/

/-- Telegram chat-member status, as returned by `getChatMember`. -/
inductive ChatStatus where
  | creator
  | administrator
  | member
  | restricted
  | leftChat
  | kicked
  deriving DecidableEq, Repr

/-- `["creator", "administrator"].includes(chatMember.status)`. -/
def isElevated : ChatStatus → Bool
  | .creator => true
  | .administrator => true
  | _ => false

/-- `haystack.includes(needle)`: `needle` occurs as a contiguous substring. -/
def containsSub (needle : List Char) : List Char → Bool
  | [] => needle.isEmpty
  | c :: cs => needle.isPrefixOf (c :: cs) || containsSub needle cs

/-- The gate `ctx.message.text.includes("everyone")` of the `alert`
handler: a substring test on the whole message text. -/
def alertGatePasses (text : List Char) : Bool :=
  containsSub (strChars "everyone") text

/-- Outcome of one `/alert` invocation: silently ignored (gate failed),
fixed denial reply, empty-roster reply, or the emitted mention batches
(one outbound message per batch; mention formatting is not modelled). -/
inductive AlertOut where
  | silent
  | denyReply
  | emptyRosterReply
  | batches (bs : List (List Int))
  deriving DecidableEq, Repr

/-- Body of the `alert` handler.  `roster` is the `group_members` rows for
the chat; the second component records whether the roster query was
performed. -/
def alertRun (status : ChatStatus) (roster : List Int)
    (text : List Char) : AlertOut × Bool :=
  if !alertGatePasses text then (.silent, false)
  else if !isElevated status then (.denyReply, false)
  else if roster.isEmpty then (.emptyRosterReply, true)
  else (.batches (mentionChunks roster), true)

/-! ### Helper lemmas about lists -/

theorem dropLast_cons_ne {α : Type} (a : α) (rest : List α) (h : rest ≠ []) :
    (a :: rest).dropLast = a :: rest.dropLast := by
  cases rest with
  | nil => exact absurd rfl h
  | cons b t => simp [List.dropLast]

theorem dropLast_take_subset {α : Type} :
    ∀ (M : List α) (k : Nat), (M.take k).dropLast ⊆ M.dropLast := by
  intro M
  induction M with
  | nil => intro k; simp
  | cons a M' ih =>
    intro k
    cases k with
    | zero => simp
    | succ j =>
      simp only [List.take_succ_cons]
      by_cases hj : M'.take j = []
      · simp [hj, List.dropLast]
      · have hM' : M' ≠ [] := by
          intro hM'; exact hj (by simp [hM'])
        rw [dropLast_cons_ne _ _ hj, dropLast_cons_ne _ _ hM']
        intro x hx
        rcases List.mem_cons.mp hx with hx | hx
        · exact hx ▸ List.mem_cons_self _ _
        · exact List.mem_cons_of_mem _ (ih j hx)

theorem tail_take {α : Type} :
    ∀ (L : List α) (w : Nat), (L.take w).tail = L.tail.take (w - 1) := by
  intro L w
  cases L with
  | nil => simp
  | cons a t =>
    cases w with
    | zero => simp
    | succ j => simp

theorem tail_dropLast_take_subset {α : Type} (L : List α) (w : Nat) :
    (L.take w).tail.dropLast ⊆ L.tail.dropLast := by
  rw [tail_take]
  exact dropLast_take_subset _ _

/-! ### Lemmas about `splitOnSpace` -/

theorem sos_ne_nil : ∀ (v : List Char), splitOnSpace v ≠ [] := by
  intro v
  cases v with
  | nil => simp [splitOnSpace]
  | cons c cs =>
    by_cases hc : c = ' '
    · simp [splitOnSpace, hc]
    · simp only [splitOnSpace, if_neg hc]
      split <;> simp

theorem sos_token_chars :
    ∀ (v : List Char) (t : List Char), t ∈ splitOnSpace v →
      ∀ c ∈ t, c ∈ v ∧ c ≠ ' ' := by
  intro v
  induction v with
  | nil =>
    intro t ht c hc
    simp [splitOnSpace] at ht
    subst ht
    simp at hc
  | cons d cs ih =>
    intro t ht c hc
    by_cases hd : d = ' '
    · simp only [splitOnSpace, if_pos hd] at ht
      rcases List.mem_cons.mp ht with ht | ht
      · subst ht; simp at hc
      · rcases ih t ht c hc with ⟨h1, h2⟩
        exact ⟨List.mem_cons_of_mem _ h1, h2⟩
    · simp only [splitOnSpace, if_neg hd] at ht
      rcases hrec : splitOnSpace cs with _ | ⟨t₀, ts⟩
      · exact absurd hrec (sos_ne_nil cs)
      · rw [hrec] at ht
        rcases List.mem_cons.mp ht with ht | ht
        · subst ht
          rcases List.mem_cons.mp hc with hc | hc
          · subst hc; exact ⟨by simp, hd⟩
          · rcases ih t₀ (by rw [hrec]; exact List.mem_cons_self _ _) c hc with ⟨h1, h2⟩
            exact ⟨List.mem_cons_of_mem _ h1, h2⟩
        · rcases ih t (by rw [hrec]; exact List.mem_cons_of_mem _ ht) c hc with ⟨h1, h2⟩
          exact ⟨List.mem_cons_of_mem _ h1, h2⟩

theorem sos_append_tok :
    ∀ (t u : List Char) (h : List Char) (ts : List (List Char)),
      (∀ c ∈ t, c ≠ ' ') → splitOnSpace u = h :: ts →
      splitOnSpace (t ++ u) = (t ++ h) :: ts := by
  intro t
  induction t with
  | nil => intro u h ts _ hu; simpa using hu
  | cons c t' ih =>
    intro u h ts hfree hu
    have hc : c ≠ ' ' := hfree c (List.mem_cons_self _ _)
    have hrec := ih u h ts (fun x hx => hfree x (List.mem_cons_of_mem _ hx)) hu
    simp only [List.cons_append, splitOnSpace, if_neg hc, List.append_eq, hrec]

theorem sos_join :
    ∀ (l : List (List Char)), l ≠ [] → (∀ t ∈ l, ∀ c ∈ t, c ≠ ' ') →
      splitOnSpace (joinSp l) = l := by
  intro l
  induction l with
  | nil => intro h; exact absurd rfl h
  | cons t ts ih =>
    intro _ hfree
    cases ts with
    | nil =>
      have : splitOnSpace (t ++ []) = (t ++ []) :: [] :=
        sos_append_tok t [] [] [] (hfree t (List.mem_cons_self _ _)) rfl
      simpa [joinSp] using this
    | cons r ts' =>
      have hts : splitOnSpace (joinSp (r :: ts')) = r :: ts' :=
        ih (by simp) (fun x hx c hc => hfree x (List.mem_cons_of_mem _ hx) c hc)
      have hsp : splitOnSpace (' ' :: joinSp (r :: ts')) = [] :: r :: ts' := by
        simp [splitOnSpace, hts]
      have := sos_append_tok t (' ' :: joinSp (r :: ts')) [] (r :: ts')
        (hfree t (List.mem_cons_self _ _)) hsp
      simpa [joinSp] using this

/-! ### Lemmas about `collapseGo` -/

theorem collapse_ws_is_space :
    ∀ (s : List Char) (b : Bool) (c : Char),
      c ∈ collapseGo b s → isWsChar c = true → c = ' ' := by
  intro s
  induction s with
  | nil => intro b c hc; cases b <;> simp [collapseGo] at hc
  | cons d s' ih =>
    intro b c hc hw
    by_cases hd : isWsChar d = true
    · cases b with
      | true =>
        simp only [collapseGo, if_pos hd] at hc
        exact ih true c hc hw
      | false =>
        simp only [collapseGo, if_pos hd] at hc
        rcases List.mem_cons.mp hc with h | h
        · exact h
        · exact ih true c h hw
    · cases b <;> simp only [collapseGo, if_neg hd] at hc <;>
        rcases List.mem_cons.mp hc with h | h
      · subst h; exact absurd hw hd
      · exact ih false c h hw
      · subst h; exact absurd hw hd
      · exact ih false c h hw

theorem collapseGo_true_head :
    ∀ (s : List Char) (c : Char), (collapseGo true s).head? = some c → c ≠ ' ' := by
  intro s
  induction s with
  | nil => intro c hc; simp [collapseGo] at hc
  | cons d s' ih =>
    intro c hc
    by_cases hd : isWsChar d = true
    · simp only [collapseGo, if_pos hd] at hc
      exact ih c hc
    · simp only [collapseGo, if_neg hd, List.head?_cons, Option.some.injEq] at hc
      subst hc
      intro h
      rw [h] at hd
      simp [isWsChar] at hd

theorem collapse_chain :
    ∀ (s : List Char) (b : Bool), noTwoSpaces (collapseGo b s) := by
  intro s
  induction s with
  | nil => intro b; cases b <;> simp [collapseGo, noTwoSpaces]
  | cons d s' ih =>
    intro b
    by_cases hd : isWsChar d = true
    · cases b with
      | true => simpa [collapseGo, hd] using ih true
      | false =>
        simp only [collapseGo, if_pos hd]
        rw [noTwoSpaces, List.chain'_cons']
        refine ⟨?_, ih true⟩
        intro y hy hcon
        exact collapseGo_true_head s' y hy hcon.2
    · cases b <;> simp only [collapseGo, if_neg hd] <;>
        rw [noTwoSpaces, List.chain'_cons'] <;> refine ⟨?_, ih false⟩ <;>
        · intro y _ hcon
          rw [hcon.1] at hd
          simp [isWsChar] at hd

theorem collapse_id :
    ∀ (v : List Char), (∀ c ∈ v, isWsChar c = true → c = ' ') → noTwoSpaces v →
      collapseGo false v = v := by
  intro v
  induction v with
  | nil => intro _ _; rfl
  | cons c v' ih =>
    intro hws hchain
    have hchain' : noTwoSpaces v' := (List.chain'_cons'.mp hchain).2
    have hih : collapseGo false v' = v' :=
      ih (fun x hx => hws x (List.mem_cons_of_mem _ hx)) hchain'
    by_cases hc : isWsChar c = true
    · have hcsp : c = ' ' := hws c (List.mem_cons_self _ _) hc
      subst hcsp
      simp only [collapseGo, if_pos hc]
      congr 1
      cases v' with
      | nil => rfl
      | cons d v'' =>
        have hd : d ≠ ' ' := by
          intro hd
          exact (List.chain'_cons'.mp hchain).1 d (by simp) ⟨rfl, hd⟩
        have hdws : ¬isWsChar d = true := by
          intro h
          exact hd (hws d (by simp) h)
        simp only [collapseGo, if_neg hdws]
        have := hih
        simp only [collapseGo, if_neg hdws] at this
        exact this
    · simp only [collapseGo, if_neg hc, hih]

/-! ### Tokens of `jsSplitWs` -/

theorem jsSplitWs_tokens_wsFree :
    ∀ (s : List Char) (t : List Char), t ∈ jsSplitWs s →
      ∀ c ∈ t, isWsChar c = false := by
  intro s t ht c hc
  rcases sos_token_chars (collapseGo false s) t ht c hc with ⟨hmem, hne⟩
  by_cases h : isWsChar c = true
  · exact absurd (collapse_ws_is_space s false c hmem h) hne
  · simpa using h

theorem sos_middles_aux :
    ∀ (v : List Char),
      (noTwoSpaces v → ∀ t ∈ (splitOnSpace v).tail.dropLast, t ≠ []) ∧
      (noTwoSpaces v → (∀ c, v.head? = some c → c ≠ ' ') →
        ∀ t ∈ (splitOnSpace v).dropLast, t ≠ []) := by
  intro v
  induction v with
  | nil => constructor <;> intro _ <;> simp [splitOnSpace]
  | cons c v' ih =>
    have hne := sos_ne_nil v'
    constructor
    · intro hchain t ht
      by_cases hc : c = ' '
      · subst hc
        simp only [splitOnSpace, if_pos rfl, List.tail_cons] at ht
        refine ih.2 (List.chain'_cons'.mp hchain).2 ?_ t ht
        intro y hy hy'
        exact (List.chain'_cons'.mp hchain).1 y (by simpa [hy'] using hy) ⟨rfl, hy'⟩
      · simp only [splitOnSpace, if_neg hc] at ht
        rcases hrec : splitOnSpace v' with _ | ⟨t₀, ts₀⟩
        · exact absurd hrec hne
        · rw [hrec] at ht
          simp only [List.tail_cons] at ht
          have : t ∈ (splitOnSpace v').tail.dropLast := by
            rw [hrec]; simpa using ht
          exact ih.1 (List.chain'_cons'.mp hchain).2 t this
    · intro hchain hhead t ht
      have hc : c ≠ ' ' := hhead c (by simp)
      simp only [splitOnSpace, if_neg hc] at ht
      rcases hrec : splitOnSpace v' with _ | ⟨t₀, ts₀⟩
      · exact absurd hrec hne
      · rw [hrec] at ht
        by_cases hts : ts₀ = []
        · subst hts; simp at ht
        · rw [dropLast_cons_ne _ _ hts] at ht
          rcases List.mem_cons.mp ht with h | h
          · subst h; simp
          · have : t ∈ (splitOnSpace v').tail.dropLast := by
              rw [hrec]; simpa using h
            exact ih.1 (List.chain'_cons'.mp hchain).2 t this

/-- Every fragment of `jsSplitWs` other than the first and the last is
non-empty (empty fragments only arise from leading/trailing whitespace). -/
theorem jsSplitWs_middles_ne :
    ∀ (s : List Char) (t : List Char), t ∈ (jsSplitWs s).tail.dropLast → t ≠ [] :=
  fun s t ht => (sos_middles_aux (collapseGo false s)).1 (collapse_chain s false) t ht

/-! ### Joining space-free tokens -/

theorem chain_of_no_space :
    ∀ (v : List Char), (∀ c ∈ v, c ≠ ' ') → noTwoSpaces v := by
  intro v
  induction v with
  | nil => intro _; simp [noTwoSpaces]
  | cons c v' ih =>
    intro h
    rw [noTwoSpaces, List.chain'_cons']
    refine ⟨?_, ih fun x hx => h x (List.mem_cons_of_mem _ hx)⟩
    intro y _ hcon
    exact h c (by simp) hcon.1

theorem joinSp_ws_is_space :
    ∀ (l : List (List Char)), (∀ t ∈ l, ∀ c ∈ t, isWsChar c = false) →
      ∀ c ∈ joinSp l, isWsChar c = true → c = ' ' := by
  intro l
  induction l with
  | nil => intro _ c hc; simp [joinSp] at hc
  | cons t ts ih =>
    intro h c hc hw
    cases ts with
    | nil =>
      simp only [joinSp] at hc
      rw [h t (by simp) c hc] at hw
      simp at hw
    | cons r ts' =>
      simp only [joinSp, List.mem_append] at hc
      rcases hc with hc | hc
      · rw [h t (by simp) c hc] at hw; simp at hw
      · rcases List.mem_cons.mp hc with hc | hc
        · exact hc
        · exact ih (fun x hx => h x (List.mem_cons_of_mem _ hx)) c hc hw

theorem joinSp_head_ne_space :
    ∀ (ts : List (List Char)), (∀ t ∈ ts, ∀ c ∈ t, c ≠ ' ') →
      (∀ t ∈ ts.dropLast, t ≠ []) →
      ∀ y, (joinSp ts).head? = some y → y ≠ ' ' := by
  intro ts
  cases ts with
  | nil => intro _ _ y hy; simp [joinSp] at hy
  | cons r ts' =>
    intro hfree hmid y hy
    cases ts' with
    | nil =>
      simp only [joinSp] at hy
      exact hfree r (by simp) y (List.mem_of_mem_head? (by simp [hy]))
    | cons r' ts'' =>
      have hr : r ≠ [] := hmid r (by rw [dropLast_cons_ne _ _ (by simp)]; simp)
      cases r with
      | nil => exact absurd rfl hr
      | cons a r₀ =>
        simp only [joinSp, List.cons_append, List.head?_cons,
          Option.some.injEq] at hy
        exact hy ▸ hfree (a :: r₀) (by simp) a (by simp)

theorem joinSp_chain :
    ∀ (l : List (List Char)), (∀ t ∈ l, ∀ c ∈ t, c ≠ ' ') →
      (∀ t ∈ l.tail.dropLast, t ≠ []) → noTwoSpaces (joinSp l) := by
  intro l
  induction l with
  | nil => intro _ _; simp [joinSp, noTwoSpaces]
  | cons t ts ih =>
    intro hfree hmid
    cases ts with
    | nil => exact chain_of_no_space t (hfree t (by simp))
    | cons r ts' =>
      have hfree' : ∀ x ∈ r :: ts', ∀ c ∈ x, c ≠ ' ' :=
        fun x hx => hfree x (List.mem_cons_of_mem _ hx)
      have hmid' : ∀ x ∈ (r :: ts').dropLast, x ≠ [] := by
        simpa using hmid
      show noTwoSpaces (t ++ ' ' :: joinSp (r :: ts'))
      rw [noTwoSpaces, List.chain'_append]
      refine ⟨chain_of_no_space t (hfree t (by simp)), ?_, ?_⟩
      · rw [List.chain'_cons']
        refine ⟨?_, ?_⟩
        · intro y hy hcon
          exact joinSp_head_ne_space (r :: ts') hfree' hmid' y
            (by simpa using hy) hcon.2
        · have hmid'' : ∀ x ∈ (r :: ts').tail.dropLast, x ≠ [] := by
            intro x hx
            refine hmid' x ?_
            simp only [List.tail_cons] at hx
            cases ts' with
            | nil => simp at hx
            | cons r' ts'' =>
              rw [dropLast_cons_ne _ _ (by simp)]
              exact List.mem_cons_of_mem _ hx
          exact ih hfree' hmid''
      · intro x hx y hy hcon
        have hxt : x ∈ t := List.mem_of_mem_getLast? hx
        exact hfree t (by simp) x hxt hcon.1

/-- Splitting the space-joined token list recovers the token list, provided
the tokens are whitespace-free and only the first or last may be empty. -/
theorem jsSplitWs_joinSp :
    ∀ (l : List (List Char)), l ≠ [] →
      (∀ t ∈ l, ∀ c ∈ t, isWsChar c = false) →
      (∀ t ∈ l.tail.dropLast, t ≠ []) →
      jsSplitWs (joinSp l) = l := by
  intro l hne hws hmid
  have hfree : ∀ t ∈ l, ∀ c ∈ t, c ≠ ' ' := by
    intro t ht c hc hsp
    have := hws t ht c hc
    rw [hsp] at this
    simp [isWsChar] at this
  have hid : collapseGo false (joinSp l) = joinSp l :=
    collapse_id (joinSp l) (joinSp_ws_is_space l hws) (joinSp_chain l hfree hmid)
  unfold jsSplitWs
  rw [hid]
  exact sos_join l hne hfree

/-! ### Word counting -/

theorem cwGo_ws_cons (b : Bool) (c : Char) (cs : List Char)
    (h : isWsChar c = true) : cwGo b (c :: cs) = cwGo false cs := by
  simp [cwGo, h]

theorem cwGo_append_wsFree :
    ∀ (t : List Char), (∀ c ∈ t, isWsChar c = false) → ∀ (b : Bool) (u : List Char),
      cwGo b (t ++ u) =
        if t.isEmpty then cwGo b u else (if b then 0 else 1) + cwGo true u := by
  intro t
  induction t with
  | nil => intro _ b u; simp
  | cons c t' ih =>
    intro h b u
    have hc : isWsChar c = false := h c (by simp)
    have ih' := ih (fun x hx => h x (List.mem_cons_of_mem _ hx)) true u
    simp only [List.cons_append, cwGo, hc, Bool.false_eq_true, if_false,
      List.isEmpty_cons, List.append_eq]
    rw [ih']
    by_cases ht' : t'.isEmpty <;> simp [ht']

theorem countWords_joinSp_le :
    ∀ (l : List (List Char)), (∀ t ∈ l, ∀ c ∈ t, isWsChar c = false) →
      countWords (joinSp l) ≤ l.length := by
  intro l
  induction l with
  | nil => intro _; simp [joinSp, countWords, cwGo]
  | cons t ts ih =>
    intro h
    cases ts with
    | nil =>
      show cwGo false t ≤ 1
      have := cwGo_append_wsFree t (h t (by simp)) false []
      rw [List.append_nil] at this
      rw [this]
      by_cases ht : t.isEmpty <;> simp [ht, cwGo]
    | cons r ts' =>
      have hws : isWsChar ' ' = true := by simp [isWsChar]
      have ihts := ih (fun x hx => h x (List.mem_cons_of_mem _ hx))
      show cwGo false (t ++ ' ' :: joinSp (r :: ts')) ≤ (t :: r :: ts').length
      rw [cwGo_append_wsFree t (h t (by simp)) false _]
      by_cases ht : t.isEmpty
      · simp only [ht, if_true, cwGo_ws_cons _ _ _ hws]
        calc cwGo false (joinSp (r :: ts')) ≤ (r :: ts').length := ihts
          _ ≤ (t :: r :: ts').length := by simp
      · simp only [ht, Bool.false_eq_true, if_false]
        rw [cwGo_ws_cons _ _ _ hws]
        have : cwGo false (joinSp (r :: ts')) ≤ (r :: ts').length := ihts
        simp only [List.length_cons] at this ⊢
        omega

/-- The word-limit truncation yields at most `w` whitespace-delimited
words. -/
theorem countWords_truncate_le (w : Nat) (s : List Char) :
    countWords (truncateWords w s) ≤ w := by
  unfold truncateWords
  calc countWords (joinSp ((jsSplitWs s).take w))
      ≤ ((jsSplitWs s).take w).length :=
        countWords_joinSp_le _ (fun t ht =>
          jsSplitWs_tokens_wsFree s t (List.take_subset _ _ ht))
    _ ≤ w := by
        rw [List.length_take]
        exact Nat.min_le_left _ _

/-! ### Chunking lemmas -/

theorem chunkGo_fuel_irrel {α : Type} :
    ∀ (f₁ : Nat) (l : List α) (f₂ : Nat), l.length ≤ f₁ → l.length ≤ f₂ →
      chunkGo f₁ l = chunkGo f₂ l := by
  intro f₁
  induction f₁ with
  | zero =>
    intro l f₂ h₁ _
    have : l = [] := List.eq_nil_of_length_eq_zero (Nat.le_zero.mp h₁)
    subst this
    cases f₂ <;> rfl
  | succ g₁ ih =>
    intro l f₂ h₁ h₂
    cases l with
    | nil => cases f₂ <;> rfl
    | cons x xs =>
      cases f₂ with
      | zero => simp at h₂
      | succ g₂ =>
        simp only [chunkGo]
        congr 1
        apply ih
        · simp only [List.length_drop, List.length_cons]
          simp only [List.length_cons] at h₁
          omega
        · simp only [List.length_drop, List.length_cons]
          simp only [List.length_cons] at h₂
          omega

theorem mentionChunks_nil {α : Type} : mentionChunks ([] : List α) = [] := rfl

theorem mentionChunks_cons {α : Type} (x : α) (xs : List α) :
    mentionChunks (x :: xs)
      = (x :: xs).take 50 :: mentionChunks ((x :: xs).drop 50) := by
  show chunkGo (x :: xs).length (x :: xs) = _
  simp only [List.length_cons, chunkGo]
  congr 1
  apply chunkGo_fuel_irrel
  · simp only [List.length_drop, List.length_cons]; omega
  · exact Nat.le_refl _

theorem mentionChunks_nil_iff {α : Type} (l : List α) :
    mentionChunks l = [] ↔ l = [] := by
  cases l with
  | nil => simp [mentionChunks_nil]
  | cons x xs => simp [mentionChunks_cons]

theorem mentionChunks_props_aux {α : Type} :
    ∀ (n : Nat) (l : List α), l.length ≤ n →
      (mentionChunks l).flatten = l ∧
      (mentionChunks l).length = (l.length + 49) / 50 ∧
      (∀ c ∈ (mentionChunks l).dropLast, c.length = 50) := by
  intro n
  induction n with
  | zero =>
    intro l hl
    have : l = [] := List.eq_nil_of_length_eq_zero (Nat.le_zero.mp hl)
    subst this
    simp [mentionChunks_nil]
  | succ m ih =>
    intro l hl
    cases l with
    | nil => simp [mentionChunks_nil]
    | cons x xs =>
      have hdl : ((x :: xs).drop 50).length ≤ m := by
        simp only [List.length_drop, List.length_cons]
        simp only [List.length_cons] at hl
        omega
      have hrec := ih ((x :: xs).drop 50) hdl
      have heq := mentionChunks_cons x xs
      refine ⟨?_, ?_, ?_⟩
      · rw [heq, List.flatten_cons, hrec.1, List.take_append_drop]
      · rw [heq]
        simp only [List.length_cons, hrec.2.1, List.length_drop]
        omega
      · rw [heq]
        intro c hc
        by_cases hrest : mentionChunks ((x :: xs).drop 50) = []
        · rw [hrest] at hc; simp at hc
        · rw [dropLast_cons_ne _ _ hrest] at hc
          rcases List.mem_cons.mp hc with h | h
          · subst h
            have hd : (x :: xs).drop 50 ≠ [] := by
              intro h0
              exact hrest ((mentionChunks_nil_iff _).mpr h0)
            have hlen : 50 < (x :: xs).length := by
              rcases Nat.lt_or_ge 50 (x :: xs).length with h' | h'
              · exact h'
              · exact absurd (List.drop_eq_nil_of_le h') hd
            rw [List.length_take]
            omega
          · exact hrec.2.2 c h

theorem mentionChunks_props {α : Type} (l : List α) :
    (mentionChunks l).flatten = l ∧
    (mentionChunks l).length = (l.length + 49) / 50 ∧
    (∀ c ∈ (mentionChunks l).dropLast, c.length = 50) :=
  mentionChunks_props_aux l.length l (Nat.le_refl _)

theorem chunkLoop_eq_drop_aux {α : Type} :
    ∀ (n : Nat) (l : List α) (i : Nat), l.length - i ≤ n →
      chunkLoop l i = mentionChunks (l.drop i) := by
  intro n
  induction n with
  | zero =>
    intro l i hn
    unfold chunkLoop
    rw [if_neg (by omega)]
    rw [List.drop_eq_nil_of_le (by omega)]
    rfl
  | succ m ih =>
    intro l i hn
    unfold chunkLoop
    split
    · rename_i hlt
      rw [ih l (i + 50) (by omega)]
      cases hd : l.drop i with
      | nil =>
        have := List.drop_eq_nil_iff.mp hd
        omega
      | cons y ys =>
        rw [mentionChunks_cons, ← hd, List.drop_drop]
    · rename_i hge
      rw [List.drop_eq_nil_of_le (by omega)]
      rfl

theorem chunkLoop_eq_mentionChunks {α : Type} (l : List α) :
    chunkLoop l 0 = mentionChunks l := by
  have := chunkLoop_eq_drop_aux l.length l 0 (by omega)
  simpa using this

/-! ### Validator helper lemmas -/

theorem nameOk_iff (s : List Char) :
    nameOk s = true ↔ s ≠ [] ∧ ∀ c ∈ s, isAsciiLetter c = true := by
  unfold nameOk
  rw [Bool.and_eq_true, List.all_eq_true]
  constructor
  · rintro ⟨h1, h2⟩
    refine ⟨?_, h2⟩
    intro h
    subst h
    simp at h1
  · rintro ⟨h1, h2⟩
    refine ⟨?_, h2⟩
    cases s with
    | nil => exact absurd rfl h1
    | cons a t => simp

theorem wsChar_not_digit (c : Char) (h : isWsChar c = true) :
    isDigitChar c = false := by
  simp only [isWsChar, Bool.or_eq_true, decide_eq_true_eq] at h
  rcases h with (((((h | h) | h) | h) | h) | h) <;> subst h <;> decide

theorem wsChar_not_sign (c : Char) (h : isWsChar c = true) :
    c ≠ '-' ∧ c ≠ '+' := by
  simp only [isWsChar, Bool.or_eq_true, decide_eq_true_eq] at h
  rcases h with (((((h | h) | h) | h) | h) | h) <;> subst h <;>
    exact ⟨by decide, by decide⟩

theorem longestIntPrefix_parseInt :
    ∀ (tok : List Char) (v : Int),
      longestIntPrefixVal tok = some v → jsParseInt tok = some v := by
  intro tok v h
  cases tok with
  | nil => simp [longestIntPrefixVal] at h
  | cons c cs =>
    by_cases hws : isWsChar c = true
    · exfalso
      rcases wsChar_not_sign c hws with ⟨hm, hp⟩
      have hd := wsChar_not_digit c hws
      simp only [longestIntPrefixVal] at h
      rw [if_neg hm, if_neg hp] at h
      have hlead : leadDigits (c :: cs) = none := by
        simp [leadDigits, List.takeWhile_cons, hd]
      rw [hlead] at h
      simp at h
    · have hdw : (c :: cs).dropWhile isWsChar = c :: cs := by
        rw [List.dropWhile_cons, if_neg (by simp [hws])]
      simp only [longestIntPrefixVal] at h
      simp only [jsParseInt, hdw]
      exact h

/-! ### Claim theorems -/

/-- C4: the name validator accepts a string iff it matches `^[A-Za-z]+$`;
any name containing a digit, space or symbol (a non-letter) is rejected, and
a rejected name draws the pattern-error reply from the `/add` handler. -/
theorem add_name_pattern :
    (∀ s : List Char, nameOk s = true ↔ matchesNamePattern s) ∧
    (∀ (s : List Char) (c : Char), c ∈ s → isAsciiLetter c = false →
      nameOk s = false) ∧
    (∀ firstName className ageStr : List Char, nameOk firstName = false →
      addRunArgs [firstName, className, ageStr] = AddOutcome.patternReply) := by
  refine ⟨?_, ?_, ?_⟩
  · intro s
    rw [nameOk_iff]
    unfold matchesNamePattern
    constructor
    · rintro ⟨h1, h2⟩
      refine ⟨h1, fun c hc => ?_⟩
      have := h2 c hc
      simp only [isAsciiLetter, Bool.or_eq_true, Bool.and_eq_true,
        decide_eq_true_eq] at this
      exact this
    · rintro ⟨h1, h2⟩
      refine ⟨h1, fun c hc => ?_⟩
      simp only [isAsciiLetter, Bool.or_eq_true, Bool.and_eq_true,
        decide_eq_true_eq]
      exact h2 c hc
  · intro s c hc hlet
    cases hno : nameOk s with
    | false => rfl
    | true =>
      have := (nameOk_iff s).mp hno
      rw [this.2 c hc] at hlet
      cases hlet
  · intro firstName className ageStr h
    simp [addRunArgs, h]

/-- C4 witness: the concrete name of the spec scenario. -/
theorem add_name_pattern_witness :
    ('3' ∈ strChars "S3ayam") ∧ nameOk (strChars "S3ayam") = false ∧
    addRunArgs [strChars "S3ayam", strChars "BTECH", strChars "18"]
      = AddOutcome.patternReply :=
  ⟨by decide,
    add_name_pattern.2.1 (strChars "S3ayam") '3' (by decide) (by decide),
    add_name_pattern.2.2 _ _ _
      (add_name_pattern.2.1 (strChars "S3ayam") '3' (by decide) (by decide))⟩

/-- C5: a parsed age is accepted iff `5 ≤ a ≤ 120`; the boundaries 5 and 120
pass through to the insert, 4 and 121 draw the range-error reply. -/
theorem add_age_range :
    (∀ a : Int, ageOk a = true ↔ 5 ≤ a ∧ a ≤ 120) ∧
    ageOk 5 = true ∧ ageOk 120 = true ∧ ageOk 4 = false ∧ ageOk 121 = false ∧
    addRunArgs [strChars "Bob", strChars "BTECH", strChars "5"]
      = AddOutcome.insert (strChars "Bob") (strChars "BTECH") 5 ∧
    addRunArgs [strChars "Bob", strChars "BTECH", strChars "120"]
      = AddOutcome.insert (strChars "Bob") (strChars "BTECH") 120 ∧
    addRunArgs [strChars "Bob", strChars "BTECH", strChars "4"]
      = AddOutcome.rangeReply ∧
    addRunArgs [strChars "Bob", strChars "BTECH", strChars "121"]
      = AddOutcome.rangeReply := by
  refine ⟨?_, by decide, by decide, by decide, by decide,
    by decide, by decide, by decide, by decide⟩
  intro a
  simp only [ageOk, Bool.not_eq_true', Bool.or_eq_false_iff,
    decide_eq_false_iff_not]
  omega

/-- C6: a parsed word limit is accepted iff `10 ≤ w ≤ 1000` (boundaries 10
and 1000 accepted, 9 and 1001 rejected), and the scenario
`/explain Photosynthesis 5` is rejected before any generation-gateway call
(the gateway-called flag stays `false`, whatever the gateway would have
returned). -/
theorem explain_word_limit_range :
    (∀ w : Int, wordLimitOk w = true ↔ 10 ≤ w ∧ w ≤ 1000) ∧
    wordLimitOk 10 = true ∧ wordLimitOk 1000 = true ∧
    wordLimitOk 9 = false ∧ wordLimitOk 1001 = false ∧
    (∀ (api : Option (List Char)) (pf : Bool),
      explainRun api pf (strChars "/explain Photosynthesis 5")
        = (ExplainOut.invalidReply, false)) := by
  refine ⟨?_, by decide, by decide, by decide, by decide, ?_⟩
  · intro w
    simp only [wordLimitOk, Bool.not_eq_true', Bool.or_eq_false_iff,
      decide_eq_false_iff_not]
    omega
  · intro api pf
    rfl

/-- C3: the `/add` handler's reply always identifies the first failing field
in left-to-right order — arity, then name pattern, then class emptiness,
then age range (`specAddFirstError` is that order, written from the spec) —
an insert is attempted exactly when no field fails, and the scenario
`/add S3ayam BTECH 18` draws the pattern-error reply with no insert. -/
theorem add_first_failing_field :
    (∀ text : List Char,
      addErrOf (addRun text) = specAddFirstError ((splitOnSpace text).drop 1)) ∧
    addRun (strChars "/add S3ayam BTECH 18") = AddOutcome.patternReply := by
  constructor
  · intro text
    show addErrOf (addRunArgs ((splitOnSpace text).drop 1)) = _
    generalize (splitOnSpace text).drop 1 = args
    rcases args with _ | ⟨a, _ | ⟨b, _ | ⟨c, _ | ⟨d, rest⟩⟩⟩⟩
    · simp [addRunArgs, specAddFirstError, addErrOf]
    · simp [addRunArgs, specAddFirstError, addErrOf]
    · simp [addRunArgs, specAddFirstError, addErrOf]
    · by_cases hn : nameOk a
      · by_cases hcl : classOk b
        · cases hp : jsParseInt c with
          | none =>
            simp [addRunArgs, specAddFirstError, ageTokOk, addErrOf,
              hn, hcl, hp]
          | some v =>
            by_cases hage : ageOk v <;>
              simp [addRunArgs, specAddFirstError, ageTokOk, addErrOf,
                hn, hcl, hp, hage]
        · simp [addRunArgs, specAddFirstError, addErrOf, hn, hcl]
      · simp [addRunArgs, specAddFirstError, addErrOf, hn]
    · simp [addRunArgs, specAddFirstError, addErrOf]
  · decide

/-- C8: once generation has succeeded, a failing `explanations` insert only
flips the logged flag — the user-visible reply (and whether the gateway was
called) is identical to a run whose insert succeeds, and the successful
explanation reply is still delivered. -/
theorem explain_persist_best_effort :
    (∀ (api : Option (List Char)) (pf : Bool) (text : List Char),
      userReplyOf (explainRun api pf text).1
        = userReplyOf (explainRun api false text).1 ∧
      (explainRun api pf text).2 = (explainRun api false text).2) ∧
    (∀ (api : Option (List Char)) (text topic resp : List Char) (w : Int),
      (explainRun api false text).1 = ExplainOut.success topic w resp false →
      (explainRun api true text).1 = ExplainOut.success topic w resp true) := by
  have key : ∀ (api : Option (List Char)) (pf : Bool) (text : List Char),
      userReplyOf (explainRun api pf text).1
        = userReplyOf (explainRun api false text).1 ∧
      (explainRun api pf text).2 = (explainRun api false text).2 := by
    intro api pf text
    unfold explainRun
    split
    · simp
    · split
      · simp
      · split
        · simp
        · simp [userReplyOf]
  have flag : ∀ (api : Option (List Char)) (pf : Bool) (text : List Char),
      (explainRun api pf text).1 = ExplainOut.usageReply ∨
      (explainRun api pf text).1 = ExplainOut.invalidReply ∨
      ∃ t w r, (explainRun api pf text).1 = ExplainOut.success t w r pf := by
    intro api pf text
    unfold explainRun
    split
    · left; rfl
    · split
      · right; left; rfl
      · split
        · right; left; rfl
        · right; right; exact ⟨_, _, _, rfl⟩
  refine ⟨key, ?_⟩
  intro api text topic resp w h
  have hrep := (key api true text).1
  rw [h] at hrep
  rcases flag api true text with hf | hf | ⟨t', w', r', hf⟩
  · rw [hf] at hrep; simp [userReplyOf] at hrep
  · rw [hf] at hrep; simp [userReplyOf] at hrep
  · rw [hf] at hrep
    simp only [userReplyOf, ExplainReply.explanation.injEq] at hrep
    rw [hf, hrep.1, hrep.2.1, hrep.2.2]

/-- C8 witness: a concrete successful generation whose insert fails still
yields the successful explanation reply. -/
theorem explain_persist_best_effort_witness :
    (explainRun (some (strChars "x y")) false (strChars "/explain Light 10")).1
      = ExplainOut.success (strChars "Light") 10 (strChars "x y") false ∧
    (explainRun (some (strChars "x y")) true (strChars "/explain Light 10")).1
      = ExplainOut.success (strChars "Light") 10 (strChars "x y") true :=
  ⟨by decide, explain_persist_best_effort.2 _ _ _ _ _ (by decide)⟩

/-- C7 counterexample: the alert gate is `text.includes("everyone")`, so the
message `/alert everyone now` — whose trailing token is `now`, not
`everyone` — passes the gate, and an elevated issuer even reaches the roster
query; the claim's "only with the literal trailing token `everyone`" is
false on the code. -/
theorem alert_trailing_token_counterexample :
    alertGatePasses (strChars "/alert everyone now") = true ∧
    (splitOnSpace (strChars "/alert everyone now")).getLastD []
      = strChars "now" ∧
    ((splitOnSpace (strChars "/alert everyone now")).getLastD []
        == strChars "everyone") = false ∧
    (alertRun ChatStatus.creator [7] (strChars "/alert everyone now")).2
      = true := by
  decide

/-- C7 (amended): the `/alert` handler proceeds past its gate exactly when
the message text contains `everyone` as a substring (not necessarily as the
trailing token); an issuer without an elevated role (creator or
administrator) receives the fixed denial reply with no roster query and no
further processing. -/
theorem alert_gate_substring_and_denial :
    (∀ (text : List Char) (st : ChatStatus) (roster : List Int),
      (alertRun st roster text).1 = AlertOut.silent ↔
        alertGatePasses text = false) ∧
    (∀ (text : List Char) (st : ChatStatus) (roster : List Int),
      alertGatePasses text = true → isElevated st = false →
      alertRun st roster text = (AlertOut.denyReply, false)) := by
  constructor
  · intro text st roster
    unfold alertRun
    by_cases hg : alertGatePasses text
    · rw [if_neg (by simp [hg])]
      by_cases he : isElevated st
      · rw [if_neg (by simp [he])]
        by_cases hr : roster.isEmpty <;> simp [hr, hg]
      · simp [he, hg]
    · simp only [Bool.not_eq_true] at hg
      simp [hg]
  · intro text st roster hg he
    unfold alertRun
    rw [if_neg (by simp [hg]), if_pos (by simp [he])]

/-- C7 witness: a non-admin issuing `/alert everyone` gets the denial reply
and no roster query. -/
theorem alert_gate_substring_and_denial_witness :
    alertGatePasses (strChars "/alert everyone") = true ∧
    isElevated ChatStatus.member = false ∧
    alertRun ChatStatus.member [3] (strChars "/alert everyone")
      = (AlertOut.denyReply, false) :=
  ⟨by decide, by decide,
    alert_gate_substring_and_denial.2 _ _ _ (by decide) (by decide)⟩

/-- C1: the chunk loop shared by the `tag` and `alert` handlers emits
`⌈n/50⌉ = (n + 49) / 50` batches, every batch except possibly the last has
exactly 50 entries, the concatenation of the batches in emission order is
the original list, and the structural `mentionChunks` agrees with the
literal index-based translation of the `for (i = 0; i < n; i += 50)` loop. -/
theorem tag_alert_chunking :
    ∀ (α : Type) (mentions : List α),
      (mentionChunks mentions).length = (mentions.length + 49) / 50 ∧
      (∀ c ∈ (mentionChunks mentions).dropLast, c.length = 50) ∧
      (mentionChunks mentions).flatten = mentions ∧
      chunkLoop mentions 0 = mentionChunks mentions := by
  intro α l
  rcases mentionChunks_props l with ⟨h1, h2, h3⟩
  exact ⟨h2, h3, h1, chunkLoop_eq_mentionChunks l⟩

/-- C1 witness: a 60-recipient list yields batches of 50 and 10; the
non-final batch has exactly 50 entries. -/
theorem tag_alert_chunking_witness :
    (List.range 60).take 50 ∈ (mentionChunks (List.range 60)).dropLast ∧
    ((List.range 60).take 50).length = 50 :=
  ⟨by decide,
    (tag_alert_chunking Nat (List.range 60)).2.1 _ (by decide)⟩

/-- C2 counterexample: `content || "No explanation found."` treats the empty
string as falsy, so at gateway content `""` the handler persists and sends
the truncated fallback text, not the truncation of the input `""` (which
would be `""`): the claim's universally quantified equation fails at the
empty gateway string. -/
theorem explain_empty_content_counterexample :
    (explainRun (some []) false (strChars "/explain Light 10")).1
      = ExplainOut.success (strChars "Light") 10
          (strChars "No explanation found.") false ∧
    truncateWords (10 : Int).toNat [] = [] ∧
    ((strChars "No explanation found.") == ([] : List Char)) = false := by
  decide

/-- C2 (amended): the persisted/sent explanation is the falsy-coalesced
gateway content (`content || "No explanation found."`, which substitutes the
fallback for absent or empty content and is the content itself whenever the
gateway string is non-empty) truncated to its first `word_limit`
whitespace-delimited tokens; in all cases the truncation leaves at most `w`
whitespace-delimited words. -/
theorem explain_truncation_word_bound :
    (∀ (s : List Char) (w : Nat), countWords (truncateWords w s) ≤ w) ∧
    (∀ (api : Option (List Char)) (pf : Bool) (text topic resp : List Char)
        (w : Int) (lg : Bool),
      (explainRun api pf text).1 = ExplainOut.success topic w resp lg →
      resp = truncateWords w.toNat (jsContentOrDefault api) ∧
      countWords resp ≤ w.toNat) ∧
    (∀ s : List Char, s ≠ [] → jsContentOrDefault (some s) = s) := by
  refine ⟨fun s w => countWords_truncate_le w s, ?_, ?_⟩
  · intro api pf text topic resp w lg h
    unfold explainRun at h
    split at h
    · exact absurd h (by simp)
    · split at h
      · exact absurd h (by simp)
      · split at h
        · exact absurd h (by simp)
        · simp only [ExplainOut.success.injEq] at h
          rcases h with ⟨-, hw, hr, -⟩
          subst hw
          exact ⟨hr.symm, hr ▸ countWords_truncate_le _ _⟩
  · intro s hs
    cases s with
    | nil => exact absurd rfl hs
    | cons a t => rfl

/-- C2 witness: a concrete successful run with non-empty gateway text whose
reply is that text truncated. -/
theorem explain_truncation_word_bound_witness :
    (explainRun (some (strChars "a b c")) false
        (strChars "/explain Photosynthesis 10")).1
      = ExplainOut.success (strChars "Photosynthesis") 10 (strChars "a b c")
          false ∧
    strChars "a b c"
      = truncateWords (10 : Int).toNat
          (jsContentOrDefault (some (strChars "a b c"))) ∧
    countWords (strChars "a b c") ≤ (10 : Int).toNat ∧
    jsContentOrDefault (some (strChars "a b c")) = strChars "a b c" := by
  have h := explain_truncation_word_bound.2.1 (some (strChars "a b c")) false
    (strChars "/explain Photosynthesis 10") (strChars "Photosynthesis")
    (strChars "a b c") 10 false (by decide)
  exact ⟨by decide, h.1, h.2,
    explain_truncation_word_bound.2.2 (strChars "a b c") (by decide)⟩

/-- C10: a raw age (resp. word-limit) token whose longest leading
decimal-integer prefix has an in-range value is accepted — trailing
non-numeric characters are ignored — and a token is rejected only when no
leading integer parses or the parsed value is out of range; concretely,
`/add Swayam BTECH 18abc` inserts age 18. -/
theorem parseInt_prefix_acceptance :
    (∀ (tok : List Char) (v : Int), longestIntPrefixVal tok = some v →
      (ageTokOk tok = true ↔ (5 ≤ v ∧ v ≤ 120))) ∧
    (∀ tok : List Char, ageTokOk tok = false →
      jsParseInt tok = none ∨
        ∃ v, jsParseInt tok = some v ∧ (v < 5 ∨ 120 < v)) ∧
    (∀ (tok : List Char) (v : Int), longestIntPrefixVal tok = some v →
      (wordLimitTokOk tok = true ↔ (10 ≤ v ∧ v ≤ 1000))) ∧
    (∀ tok : List Char, wordLimitTokOk tok = false →
      jsParseInt tok = none ∨
        ∃ v, jsParseInt tok = some v ∧ (v < 10 ∨ 1000 < v)) ∧
    addRunArgs [strChars "Swayam", strChars "BTECH", strChars "18abc"]
      = AddOutcome.insert (strChars "Swayam") (strChars "BTECH") 18 := by
  refine ⟨?_, ?_, ?_, ?_, by decide⟩
  · intro tok v h
    have hp := longestIntPrefix_parseInt tok v h
    simp only [ageTokOk, hp, ageOk, Bool.not_eq_true', Bool.or_eq_false_iff,
      decide_eq_false_iff_not]
    omega
  · intro tok h
    cases hp : jsParseInt tok with
    | none => exact Or.inl rfl
    | some v =>
      refine Or.inr ⟨v, rfl, ?_⟩
      simp [ageTokOk, hp, ageOk] at h
      omega
  · intro tok v h
    have hp := longestIntPrefix_parseInt tok v h
    simp only [wordLimitTokOk, hp, wordLimitOk, Bool.not_eq_true',
      Bool.or_eq_false_iff, decide_eq_false_iff_not]
    omega
  · intro tok h
    cases hp : jsParseInt tok with
    | none => exact Or.inl rfl
    | some v =>
      refine Or.inr ⟨v, rfl, ?_⟩
      simp [wordLimitTokOk, hp, wordLimitOk] at h
      omega

/-- C10 witness: `18abc` parses to 18 and is accepted as an age. -/
theorem parseInt_prefix_acceptance_witness :
    longestIntPrefixVal (strChars "18abc") = some 18 ∧
    ageTokOk (strChars "18abc") = true :=
  ⟨by decide,
    (parseInt_prefix_acceptance.1 (strChars "18abc") 18 (by decide)).mpr
      (by decide)⟩

/-- C9: the word-limit token-truncation (split on whitespace, take the first
`w` tokens, join with a single space) is idempotent. -/
theorem truncation_idempotent :
    ∀ (s : List Char) (w : Nat),
      truncateWords w (truncateWords w s) = truncateWords w s := by
  intro s w
  rcases Nat.eq_zero_or_pos w with hw | hw
  · subst hw
    rfl
  · have hLne : jsSplitWs s ≠ [] := sos_ne_nil (collapseGo false s)
    have hlne : (jsSplitWs s).take w ≠ [] := by
      rw [Ne, List.take_eq_nil_iff]
      rintro (h | h)
      · omega
      · exact hLne h
    have hfree : ∀ t ∈ (jsSplitWs s).take w, ∀ c ∈ t, isWsChar c = false :=
      fun t ht => jsSplitWs_tokens_wsFree s t (List.take_subset _ _ ht)
    have hmid : ∀ t ∈ ((jsSplitWs s).take w).tail.dropLast, t ≠ [] :=
      fun t ht => jsSplitWs_middles_ne s t (tail_dropLast_take_subset _ w ht)
    have hsplit : jsSplitWs (joinSp ((jsSplitWs s).take w))
        = (jsSplitWs s).take w :=
      jsSplitWs_joinSp _ hlne hfree hmid
    show truncateWords w (joinSp ((jsSplitWs s).take w))
        = joinSp ((jsSplitWs s).take w)
    unfold truncateWords
    rw [hsplit, List.take_of_length_le]
    rw [List.length_take]
    exact Nat.min_le_left _ _

end StudyBot
